import Mathlib

/-!
Shallow embedding of the Toolset Registry and Dynamic Tool Discovery
subsystem of buildkite-mcp-server (pkg/toolsets/list_toolsets.go,
pkg/toolsets/search.go, internal/commands/tools.go), together with proofs
of the behavioural properties stated in the design document.

Modelling conventions:
* A Go string is modelled as its sequence of Unicode code points
  (`List Char`).  `strings.ToLower` is modelled code-point-wise; Go's
  byte-wise string comparison coincides with the code-point
  lexicographic order used here on the data appearing in this system.
* A Go slice that may be `nil` is modelled as `Option (List _)`
  (`none` = nil slice); ranging over a nil slice yields nothing.
* The Go map `map[string]Toolset` is an unordered, extensional
  key-value mapping; it is modelled in canonical form as an association
  list strictly sorted by key.  Enumerating the map's keys and sorting
  them (`slices.Sorted(maps.Keys(m))`, as the Go code does in `List`
  and `SearchToolsWithMetadata`) yields exactly the keys of the
  canonical list, in list order.  Map insertion is the sorted
  insert-or-replace `insertToolset`.  Similarly a `map[string]bool`
  used as a scope set, enumerated and then sorted, is modelled by
  `sortedKeySet`.
* Handlers (`server.ToolHandlerFunc`) are opaque to the registry; the
  registry never invokes them, so they are omitted from the model.
-/

/-- A Go string, as its list of code points. -/
abbrev GoStr := List Char

/-- Code-point list of a Lean string literal (used to transcribe Go string
literals). -/
def gs (s : String) : GoStr := s.data

/-- Go `strings.ToLower`, code-point-wise. -/
def goToLower (s : GoStr) : GoStr := s.map Char.toLower

/-- `goStrStarts sub s` tests whether `s` starts with `sub`. -/
def goStrStarts : GoStr → GoStr → Bool
  | [], _ => true
  | _ :: _, [] => false
  | a :: as, b :: bs => a == b && goStrStarts as bs

/-- Go `strings.Contains s sub`: `sub` occurs as a contiguous substring of
`s` (the empty string occurs in every string). -/
def goStrContains : GoStr → GoStr → Bool
  | [], sub => sub.isEmpty
  | c :: rest, sub => goStrStarts sub (c :: rest) || goStrContains rest sub

/-- Ranging over a Go slice: a nil slice yields no elements. -/
def goRange (o : Option (List α)) : List α := o.getD []

/-- The parts of `mcp.Tool` the registry reads: name, description and the
optional read-only annotation (`Annotations.ReadOnlyHint`). -/
structure Tool where
  Name : GoStr
  Description : GoStr
  ReadOnlyHint : Option Bool
deriving DecidableEq

/-- Go `toolsets.ToolDefinition`: an MCP tool with required scopes and the
deferred-loading flag.  The opaque handler is omitted. -/
structure ToolDefinition where
  Tool : Tool
  RequiredScopes : Option (List GoStr)
  DeferLoading : Bool
deriving DecidableEq

/-- Go `ToolDefinition.IsReadOnly`: true only when the read-only hint is
present and true. -/
def ToolDefinition.IsReadOnly (td : ToolDefinition) : Bool :=
  match td.Tool.ReadOnlyHint with
  | none => false
  | some b => b

/-- Go `toolsets.Toolset`: a named, described collection of tools. -/
structure Toolset where
  Name : GoStr
  Description : GoStr
  Tools : List ToolDefinition
deriving DecidableEq

/-- Go `Toolset.GetReadOnlyTools`: the read-only tools, in stored order. -/
def Toolset.GetReadOnlyTools (ts : Toolset) : List ToolDefinition :=
  ts.Tools.filter (fun td => td.IsReadOnly)

/-- Go `Toolset.GetAllTools`. -/
def Toolset.GetAllTools (ts : Toolset) : List ToolDefinition := ts.Tools

/-- Insert a key into the canonical (strictly sorted, duplicate-free)
enumeration of a Go string-key set. -/
def insertSortedKey (s : GoStr) : List GoStr → List GoStr
  | [] => [s]
  | x :: xs =>
    if s < x then s :: x :: xs
    else if s = x then x :: xs
    else x :: insertSortedKey s xs

/-- Canonical enumeration of the key set of a Go `map[string]bool` built by
inserting every element of `l`, then sorting the keys (`slices.Sort`):
the strictly sorted, duplicate-free list of the elements of `l`. -/
def sortedKeySet (l : List GoStr) : List GoStr := l.foldr insertSortedKey []

/-- Go `Toolset.GetRequiredScopes`: all unique scopes required by tools in
this toolset, sorted. -/
def Toolset.GetRequiredScopes (ts : Toolset) : List GoStr :=
  sortedKeySet (ts.Tools.flatMap (fun td => goRange td.RequiredScopes))

/-- Go `toolsets.ToolsetRegistry`: the map from toolset name to toolset, in
canonical (strictly key-sorted association list) form. -/
structure ToolsetRegistry where
  toolsets : List (GoStr × Toolset)
deriving DecidableEq

/-- Go `NewToolsetRegistry`. -/
def NewToolsetRegistry : ToolsetRegistry := ⟨[]⟩

/-- Insert-or-replace into the canonical association list (Go map
assignment `tr.toolsets[name] = toolset`). -/
def insertToolset (name : GoStr) (ts : Toolset) :
    List (GoStr × Toolset) → List (GoStr × Toolset)
  | [] => [(name, ts)]
  | (k, v) :: rest =>
    if name < k then (name, ts) :: (k, v) :: rest
    else if name = k then (name, ts) :: rest
    else (k, v) :: insertToolset name ts rest

/-- Go `ToolsetRegistry.Register`. -/
def ToolsetRegistry.Register (tr : ToolsetRegistry) (name : GoStr)
    (ts : Toolset) : ToolsetRegistry :=
  ⟨insertToolset name ts tr.toolsets⟩

/-- Go `ToolsetRegistry.RegisterToolsets`: registers every entry of the
given collection of toolsets (the collection is a Go map; it is supplied
here as a list of entries in some enumeration order). -/
def ToolsetRegistry.RegisterToolsets (tr : ToolsetRegistry)
    (m : List (GoStr × Toolset)) : ToolsetRegistry :=
  m.foldl (fun r p => r.Register p.1 p.2) tr

/-- Go `ToolsetRegistry.Get` (map lookup with its `exists` flag). -/
def ToolsetRegistry.Get (tr : ToolsetRegistry) (name : GoStr) : Option Toolset :=
  tr.toolsets.lookup name

/-- Well-formedness of the canonical map representation: entries strictly
sorted by key.  Every registry reachable by `Register` from
`NewToolsetRegistry` satisfies it. -/
def ToolsetRegistry.WF (tr : ToolsetRegistry) : Prop :=
  tr.toolsets.Pairwise (fun a b => a.1 < b.1)

/-- Go `ToolsetRegistry.List`: all registered toolset names, sorted.  In
the canonical model, enumerating the map keys and sorting them yields the
key list of the association list. -/
def regList (tr : ToolsetRegistry) : List GoStr :=
  tr.toolsets.map Prod.fst

/-- Go `ToolsetRegistry.GetEnabledTools`: expand the `"all"` sentinel to
the full sorted name list, then concatenate each named toolset's tools
(read-only-filtered in read-only mode); unknown names contribute
nothing. -/
def ToolsetRegistry.GetEnabledTools (tr : ToolsetRegistry)
    (enabledToolsets : List GoStr) (readOnlyMode : Bool) : List ToolDefinition :=
  let enabled :=
    if enabledToolsets.contains (gs "all") then regList tr else enabledToolsets
  enabled.flatMap (fun toolsetName =>
    match tr.Get toolsetName with
    | some toolset =>
        if readOnlyMode then toolset.GetReadOnlyTools else toolset.GetAllTools
    | none => [])

/-- Go `ToolsetRegistry.GetRequiredScopes`: the sorted, de-duplicated
union of the required scopes of the tools selected exactly as in
`GetEnabledTools`. -/
def ToolsetRegistry.GetRequiredScopes (tr : ToolsetRegistry)
    (enabledToolsets : List GoStr) (readOnlyMode : Bool) : List GoStr :=
  let enabled :=
    if enabledToolsets.contains (gs "all") then regList tr else enabledToolsets
  sortedKeySet ((enabled.flatMap (fun toolsetName =>
    match tr.Get toolsetName with
    | some toolset =>
        if readOnlyMode then toolset.GetReadOnlyTools else toolset.GetAllTools
    | none => [])).flatMap (fun td => goRange td.RequiredScopes))

/-- Go `toolsets.SearchResult`. -/
structure SearchResult where
  Tool : Tool
  ToolsetName : GoStr
  MatchedIn : GoStr
  RequiredScopes : Option (List GoStr)
  ReadOnly : Bool
deriving DecidableEq

/-- `nameMatch` of the search loop: case-insensitive substring test of the
query against the tool name. -/
def nameMatchB (qLower : GoStr) (td : ToolDefinition) : Bool :=
  goStrContains (goToLower td.Tool.Name) qLower

/-- `descMatch` of the search loop. -/
def descMatchB (qLower : GoStr) (td : ToolDefinition) : Bool :=
  goStrContains (goToLower td.Tool.Description) qLower

/-- A tool is collected when either field matches. -/
def toolMatchB (qLower : GoStr) (td : ToolDefinition) : Bool :=
  nameMatchB qLower td || descMatchB qLower td

/-- The `matchedIn` classification of the search loop: starts as
`"description"`, overridden to `"both"` or `"name"`. -/
def matchedInOf (qLower : GoStr) (td : ToolDefinition) : GoStr :=
  if nameMatchB qLower td && descMatchB qLower td then gs "both"
  else if nameMatchB qLower td then gs "name"
  else gs "description"

/-- The `SearchResult` the loop appends for a matching tool. -/
def toSearchResult (qLower tsName : GoStr) (td : ToolDefinition) : SearchResult :=
  { Tool := td.Tool
    ToolsetName := tsName
    MatchedIn := matchedInOf qLower td
    RequiredScopes := td.RequiredScopes
    ReadOnly := td.IsReadOnly }

/-- Inner loop of `SearchToolsWithMetadata` over one toolset's tools, with
the `len(results) >= limit` early break after each append. -/
def scanTools (qLower tsName : GoStr) (limit : Int) :
    List ToolDefinition → List SearchResult → List SearchResult
  | [], acc => acc
  | td :: rest, acc =>
    if toolMatchB qLower td then
      let acc' := acc ++ [toSearchResult qLower tsName td]
      if (acc'.length : Int) ≥ limit then acc'
      else scanTools qLower tsName limit rest acc'
    else scanTools qLower tsName limit rest acc

/-- Outer loop of `SearchToolsWithMetadata` over the toolsets in sorted
name order, with the `len(results) >= limit` break after each toolset. -/
def scanToolsets (qLower : GoStr) (limit : Int) :
    List (GoStr × Toolset) → List SearchResult → List SearchResult
  | [], acc => acc
  | (tsName, ts) :: rest, acc =>
    let acc' := scanTools qLower tsName limit ts.Tools acc
    if (acc'.length : Int) ≥ limit then acc'
    else scanToolsets qLower limit rest acc'

/-- One step of the name sort: insert a result in front of the first
element with a name not below it. -/
def insertByName (r : SearchResult) : List SearchResult → List SearchResult
  | [] => [r]
  | x :: xs =>
    if r.Tool.Name ≤ x.Tool.Name then r :: x :: xs else x :: insertByName r xs

/-- Final `slices.SortFunc(results, ... strings.Compare(a.Tool.Name,
b.Tool.Name))`: sort the results ascending by tool name.  Go's sorting
algorithm is modelled by an insertion sort; it produces a name-sorted
permutation of its input, which determines the output uniquely because
tool names are registry-unique. -/
def sortByName (rs : List SearchResult) : List SearchResult :=
  rs.foldr insertByName []

/-- Go `ToolsetRegistry.SearchToolsWithMetadata`: lower the query, scan
toolsets in sorted name order collecting up to `limit` matches, then sort
the collected results by tool name. -/
def ToolsetRegistry.SearchToolsWithMetadata (tr : ToolsetRegistry)
    (query : GoStr) (limit : Int) : List SearchResult :=
  sortByName (scanToolsets (goToLower query) limit tr.toolsets [])

/-- The matching results of one toolset, in stored tool order (the
sequence the inner loop would collect with no limit). -/
def matchingResults (qLower tsName : GoStr) (tds : List ToolDefinition) :
    List SearchResult :=
  (tds.filter (toolMatchB qLower)).map (toSearchResult qLower tsName)

/-- All matching results in iteration order: toolsets in list (= sorted
name) order, tools in stored order. -/
def allMatches (qLower : GoStr) (ts : List (GoStr × Toolset)) :
    List SearchResult :=
  ts.flatMap (fun p => matchingResults qLower p.1 p.2.Tools)

/-- What the search loop produces for a non-positive limit: only the
first toolset is scanned, yielding its first match if any. -/
def firstToolsetMatch (qL : GoStr) (ts : List (GoStr × Toolset)) :
    List SearchResult :=
  match ts with
  | [] => []
  | (tsName, t) :: _ =>
    match t.Tools.filter (toolMatchB qL) with
    | [] => []
    | td :: _ => [toSearchResult qL tsName td]

/-- Go `toolsets.ValidToolsets`. -/
def ValidToolsets : List GoStr :=
  [gs "all", gs "clusters", gs "pipelines", gs "builds", gs "artifacts",
   gs "logs", gs "tests", gs "annotations", gs "user"]

/-- Go `toolsets.IsValidToolset`. -/
def IsValidToolset (name : GoStr) : Bool := ValidToolsets.contains name

/-- Go `toolsets.ValidateToolsets`: collects the invalid names; an error
carrying them is returned when there are any (`some invalid`), otherwise
nil (`none`). -/
def ValidateToolsets (names : List GoStr) : Option (List GoStr) :=
  let invalidToolsets := names.filter (fun n => !IsValidToolset n)
  if invalidToolsets.length > 0 then some invalidToolsets else none

/-- Outcome of a command `Run`: either the validation error (carrying the
invalid names) or a normal result. -/
inductive RunResult (α : Type) where
  | err (invalid : List GoStr)
  | ok (out : α)
deriving DecidableEq

/-- Go `ToolsCmd.Run` control flow (internal/commands/tools.go): validate
the configured toolsets and return the error before building any server
tools; only on success is the tool list built.  The construction of the
tool list (`server.BuildkiteTools` with the configured options) is an
external collaborator, abstracted as `buildkiteTools`. -/
def ToolsCmdRun (enabledToolsets : List GoStr)
    (buildkiteTools : List GoStr → List ToolDefinition) :
    RunResult (List ToolDefinition) :=
  match ValidateToolsets enabledToolsets with
  | some invalid => RunResult.err invalid
  | none => RunResult.ok (buildkiteTools enabledToolsets)

/-- One entry of the `search_tools` handler's JSON output. -/
structure SearchEntry where
  name : GoStr
  description : GoStr
  toolset : GoStr
  read_only : Bool
  matched_in : GoStr
  required_scopes : List GoStr
deriving DecidableEq

/-- Structured outcome of the `search_tools` handler: either the static
"no results" message or the list of entries. -/
inductive ToolSearchOutcome where
  | noResults (message : GoStr)
  | results (entries : List SearchEntry)
deriving DecidableEq

/-- U+0027, written by code point to transcribe the quotes inside the Go
hint text. -/
def quoteChar : Char := Char.ofNat 39

/-- The static hint text of the handler's "no results" response: the Go
literal reading "No tools found. Try:" followed by the six quoted example
queries (build, pipeline, artifact, log, test, cluster). -/
def noResultsMessage : GoStr :=
  gs "No tools found. Try: " ++
  [quoteChar] ++ gs "build" ++ [quoteChar] ++ gs ", " ++
  [quoteChar] ++ gs "pipeline" ++ [quoteChar] ++ gs ", " ++
  [quoteChar] ++ gs "artifact" ++ [quoteChar] ++ gs ", " ++
  [quoteChar] ++ gs "log" ++ [quoteChar] ++ gs ", " ++
  [quoteChar] ++ gs "test" ++ [quoteChar] ++ gs ", " ++
  [quoteChar] ++ gs "cluster" ++ [quoteChar]

/-- The output entry built for one search result; a nil scope slice is
replaced by an empty one (`if scopes == nil { scopes = []string{} }`). -/
def searchEntryOf (r : SearchResult) : SearchEntry :=
  { name := r.Tool.Name
    description := r.Tool.Description
    toolset := r.ToolsetName
    read_only := r.ReadOnly
    matched_in := r.MatchedIn
    required_scopes :=
      match r.RequiredScopes with
      | none => []
      | some scopes => scopes }

/-- Go `ToolSearch` handler (pkg/toolsets/search.go): search with the
fixed limit 10; empty result set yields the structured "no results"
response with the static hint text, otherwise the entry list. -/
def toolSearchHandler (registry : ToolsetRegistry) (query : GoStr) :
    ToolSearchOutcome :=
  let results := registry.SearchToolsWithMetadata query 10
  if results.length = 0 then ToolSearchOutcome.noResults noResultsMessage
  else ToolSearchOutcome.results (results.map searchEntryOf)

/-- `firstSome a b` is `a` unless `a` is `none`. -/
def firstSome {α : Type} (a b : Option α) : Option α :=
  match a with
  | some v => some v
  | none => b

/-! ### Concrete data used to instantiate the theorems below -/

def demoToolListBuilds : ToolDefinition :=
  { Tool := { Name := gs "list_builds",
              Description := gs "List all builds in a pipeline",
              ReadOnlyHint := some true },
    RequiredScopes := none
    DeferLoading := false }

def demoToolCreateBuild : ToolDefinition :=
  { Tool := { Name := gs "create_build",
              Description := gs "Create a new build",
              ReadOnlyHint := some false },
    RequiredScopes := some [gs "write_builds"]
    DeferLoading := false }

def demoToolGetArtifact : ToolDefinition :=
  { Tool := { Name := gs "get_artifact",
              Description := gs "Download an artifact by URL",
              ReadOnlyHint := some true },
    RequiredScopes := some [gs "read_artifacts"]
    DeferLoading := true }

def demoTsBuilds : Toolset :=
  { Name := gs "Build Operations",
    Description := gs "Tools for managing builds and jobs",
    Tools := [demoToolListBuilds, demoToolCreateBuild] }

def demoTsArtifacts : Toolset :=
  { Name := gs "Artifact Management",
    Description := gs "Tools for managing artifacts",
    Tools := [demoToolGetArtifact] }

def demoReg : ToolsetRegistry :=
  ⟨[(gs "artifacts", demoTsArtifacts), (gs "builds", demoTsBuilds)]⟩

/-! ### Substring test: correctness of the executable containment check -/

theorem goStrStarts_iff : ∀ sub s : GoStr, goStrStarts sub s = true ↔ sub <+: s
  | [], s => by simp [goStrStarts]
  | a :: as, [] => by simp [goStrStarts]
  | a :: as, b :: bs => by
    simp [goStrStarts, List.cons_prefix_cons, goStrStarts_iff as bs,
      Bool.and_eq_true, beq_iff_eq]

theorem goStrContains_iff : ∀ s sub : GoStr, goStrContains s sub = true ↔ sub <:+: s
  | [], sub => by simp [goStrContains, List.isEmpty_iff]
  | c :: rest, sub => by
    simp [goStrContains, List.infix_cons_iff, goStrStarts_iff,
      goStrContains_iff rest sub, Bool.or_eq_true]

theorem goStrContains_empty (s : GoStr) : goStrContains s [] = true := by
  cases s with
  | nil => rfl
  | cons c rest => simp [goStrContains, goStrStarts]

/-! ### Canonical sorted key sets -/

theorem mem_insertSortedKey (s a : GoStr) (l : List GoStr) :
    a ∈ insertSortedKey s l ↔ a = s ∨ a ∈ l := by
  induction l with
  | nil => simp [insertSortedKey]
  | cons x xs ih =>
    simp only [insertSortedKey]
    split_ifs with h1 h2
    · simp [List.mem_cons]
    · subst h2
      simp only [List.mem_cons]
      tauto
    · simp only [List.mem_cons, ih]
      tauto

theorem pairwise_insertSortedKey (s : GoStr) (l : List GoStr)
    (h : l.Pairwise (· < ·)) : (insertSortedKey s l).Pairwise (· < ·) := by
  induction l with
  | nil => simp [insertSortedKey]
  | cons x xs ih =>
    rw [List.pairwise_cons] at h
    obtain ⟨hx, hxs⟩ := h
    simp only [insertSortedKey]
    split_ifs with h1 h2
    · refine List.pairwise_cons.mpr ⟨fun b hb => ?_, List.pairwise_cons.mpr ⟨hx, hxs⟩⟩
      rcases List.mem_cons.mp hb with rfl | hb
      · exact h1
      · exact lt_trans h1 (hx b hb)
    · exact List.pairwise_cons.mpr ⟨hx, hxs⟩
    · have hxlt : x < s := lt_of_le_of_ne (not_lt.mp h1) (Ne.symm h2)
      refine List.pairwise_cons.mpr ⟨fun b hb => ?_, ih hxs⟩
      rcases (mem_insertSortedKey s b xs).mp hb with rfl | hb
      · exact hxlt
      · exact hx b hb

theorem sortedKeySet_pairwise (l : List GoStr) :
    (sortedKeySet l).Pairwise (· < ·) := by
  induction l with
  | nil => simp [sortedKeySet]
  | cons x xs ih => exact pairwise_insertSortedKey x _ ih

theorem mem_sortedKeySet (a : GoStr) (l : List GoStr) :
    a ∈ sortedKeySet l ↔ a ∈ l := by
  induction l with
  | nil => simp [sortedKeySet]
  | cons x xs ih =>
    show a ∈ insertSortedKey x (sortedKeySet xs) ↔ _
    rw [mem_insertSortedKey]
    simp [ih, List.mem_cons]

theorem sortedKeySet_nodup (l : List GoStr) : (sortedKeySet l).Nodup :=
  (sortedKeySet_pairwise l).imp ne_of_lt

/-! ### Association-list lookups -/

theorem lookup_cons_eq {β : Type} (k : GoStr) (v : β) (rest : List (GoStr × β))
    (m : GoStr) :
    ((k, v) :: rest).lookup m = if m = k then some v else rest.lookup m := by
  rw [List.lookup_cons]
  by_cases h : m = k
  · simp [h]
  · have hb : (m == k) = false := beq_eq_false_iff_ne.mpr h
    simp [hb, h]

theorem lookup_some_mem_keys {β : Type} (l : List (GoStr × β)) (m : GoStr)
    (v : β) (h : l.lookup m = some v) : m ∈ l.map Prod.fst := by
  induction l with
  | nil => simp [List.lookup_nil] at h
  | cons p rest ih =>
    obtain ⟨k, w⟩ := p
    rw [lookup_cons_eq] at h
    split_ifs at h with hm
    · rw [List.map_cons]
      exact List.mem_cons.mpr (Or.inl hm)
    · exact List.mem_cons.mpr (Or.inr (ih h))

theorem lookup_none_of_not_mem_keys {β : Type} (l : List (GoStr × β))
    (m : GoStr) (h : m ∉ l.map Prod.fst) : l.lookup m = none := by
  induction l with
  | nil => rfl
  | cons p rest ih =>
    obtain ⟨k, w⟩ := p
    have h1 : m ≠ k ∧ m ∉ rest.map Prod.fst := by
      rw [List.map_cons, List.mem_cons] at h
      exact not_or.mp h
    rw [lookup_cons_eq, if_neg h1.1]
    exact ih h1.2

theorem lookup_insertToolset (n : GoStr) (t : Toolset) (m : GoStr) :
    ∀ l : List (GoStr × Toolset),
      (insertToolset n t l).lookup m = if m = n then some t else l.lookup m
  | [] => by
    simp only [insertToolset]
    rw [lookup_cons_eq, List.lookup_nil]
  | (k, v) :: rest => by
    simp only [insertToolset]
    by_cases h1 : n < k
    · rw [if_pos h1, lookup_cons_eq]
    · rw [if_neg h1]
      by_cases h2 : n = k
      · rw [if_pos h2]
        subst h2
        rw [lookup_cons_eq, lookup_cons_eq]
        by_cases hm : m = n
        · rw [if_pos hm, if_pos hm]
        · rw [if_neg hm, if_neg hm, if_neg hm]
      · rw [if_neg h2, lookup_cons_eq, lookup_insertToolset n t m rest]
        by_cases hmk : m = k
        · have hmn : ¬ m = n := fun hh => h2 (by rw [← hh]; exact hmk)
          rw [if_pos hmk, if_neg hmn, lookup_cons_eq, if_pos hmk]
        · rw [if_neg hmk]
          by_cases hmn : m = n
          · rw [if_pos hmn, if_pos hmn]
          · rw [if_neg hmn, if_neg hmn, lookup_cons_eq, if_neg hmk]

theorem mem_insertToolset_sub (n : GoStr) (t : Toolset) :
    ∀ l : List (GoStr × Toolset), ∀ b ∈ insertToolset n t l, b = (n, t) ∨ b ∈ l := by
  intro l
  induction l with
  | nil =>
    intro b hb
    simp only [insertToolset, List.mem_singleton] at hb
    exact Or.inl hb
  | cons p rest ih =>
    obtain ⟨k, v⟩ := p
    intro b hb
    simp only [insertToolset] at hb
    split_ifs at hb with h1 h2
    · rcases List.mem_cons.mp hb with rfl | hb
      · exact Or.inl rfl
      · exact Or.inr hb
    · rcases List.mem_cons.mp hb with rfl | hb
      · exact Or.inl rfl
      · exact Or.inr (List.mem_cons.mpr (Or.inr hb))
    · rcases List.mem_cons.mp hb with rfl | hb
      · exact Or.inr (List.mem_cons.mpr (Or.inl rfl))
      · rcases ih b hb with h | h
        · exact Or.inl h
        · exact Or.inr (List.mem_cons.mpr (Or.inr h))

theorem insertToolset_wf (n : GoStr) (t : Toolset) (l : List (GoStr × Toolset))
    (h : l.Pairwise (fun a b => a.1 < b.1)) :
    (insertToolset n t l).Pairwise (fun a b => a.1 < b.1) := by
  induction l with
  | nil => simp [insertToolset]
  | cons p rest ih =>
    obtain ⟨k, v⟩ := p
    rw [List.pairwise_cons] at h
    obtain ⟨hk, hrest⟩ := h
    simp only [insertToolset]
    split_ifs with h1 h2
    · refine List.pairwise_cons.mpr ⟨fun b hb => ?_, List.pairwise_cons.mpr ⟨hk, hrest⟩⟩
      rcases List.mem_cons.mp hb with rfl | hb
      · exact h1
      · exact lt_trans h1 (hk b hb)
    · subst h2
      exact List.pairwise_cons.mpr ⟨hk, hrest⟩
    · have hkn : k < n := lt_of_le_of_ne (not_lt.mp h1) (Ne.symm h2)
      refine List.pairwise_cons.mpr ⟨fun b hb => ?_, ih hrest⟩
      rcases mem_insertToolset_sub n t rest b hb with rfl | hb
      · exact hkn
      · exact hk b hb

/-- Strictly key-sorted association lists with the same lookup function are
equal (the canonical form of a Go map is unique). -/
theorem sorted_assoc_ext {β : Type} :
    ∀ l₁ l₂ : List (GoStr × β),
      l₁.Pairwise (fun a b => a.1 < b.1) → l₂.Pairwise (fun a b => a.1 < b.1) →
      (∀ n, l₁.lookup n = l₂.lookup n) → l₁ = l₂
  | [], [], _, _, _ => rfl
  | [], (k₂, v₂) :: t₂, _, _, h => by
    have e := h k₂
    rw [lookup_cons_eq, if_pos rfl, List.lookup_nil] at e
    exact absurd e (by simp)
  | (k₁, v₁) :: t₁, [], _, _, h => by
    have e := h k₁
    rw [lookup_cons_eq, if_pos rfl, List.lookup_nil] at e
    exact absurd e (by simp)
  | (k₁, v₁) :: t₁, (k₂, v₂) :: t₂, h₁, h₂, h => by
    rw [List.pairwise_cons] at h₁ h₂
    obtain ⟨hk₁, ht₁⟩ := h₁
    obtain ⟨hk₂, ht₂⟩ := h₂
    have hkeq : k₁ = k₂ := by
      by_contra hne
      have e₁ := h k₁
      rw [lookup_cons_eq, if_pos rfl, lookup_cons_eq, if_neg hne] at e₁
      have m₁ : k₁ ∈ t₂.map Prod.fst := lookup_some_mem_keys _ _ _ e₁.symm
      obtain ⟨p, hp, hfst⟩ := List.mem_map.mp m₁
      have hlt₁ : k₂ < k₁ := by
        have := hk₂ p hp
        rw [hfst] at this
        exact this
      have e₂ := h k₂
      have hne' : ¬ k₂ = k₁ := fun hh => hne hh.symm
      rw [lookup_cons_eq, if_neg hne', lookup_cons_eq, if_pos rfl] at e₂
      have m₂ : k₂ ∈ t₁.map Prod.fst := lookup_some_mem_keys _ _ _ e₂
      obtain ⟨q, hq, hfst'⟩ := List.mem_map.mp m₂
      have hlt₂ : k₁ < k₂ := by
        have := hk₁ q hq
        rw [hfst'] at this
        exact this
      exact lt_asymm hlt₁ hlt₂
    subst hkeq
    have hveq : v₁ = v₂ := by
      have e := h k₁
      rw [lookup_cons_eq, if_pos rfl, lookup_cons_eq, if_pos rfl] at e
      exact Option.some.inj e
    subst hveq
    have htl : ∀ n, t₁.lookup n = t₂.lookup n := by
      intro n
      by_cases hn : n = k₁
      · subst hn
        have e₁ : t₁.lookup n = none := lookup_none_of_not_mem_keys _ _ (by
          intro hmem
          obtain ⟨p, hp, hfst⟩ := List.mem_map.mp hmem
          have := hk₁ p hp
          rw [hfst] at this
          exact lt_irrefl _ this)
        have e₂ : t₂.lookup n = none := lookup_none_of_not_mem_keys _ _ (by
          intro hmem
          obtain ⟨p, hp, hfst⟩ := List.mem_map.mp hmem
          have := hk₂ p hp
          rw [hfst] at this
          exact lt_irrefl _ this)
        rw [e₁, e₂]
      · have e := h n
        rw [lookup_cons_eq, if_neg hn, lookup_cons_eq, if_neg hn] at e
        exact e
    rw [sorted_assoc_ext t₁ t₂ ht₁ ht₂ htl]

/-! ### Registration -/

theorem RegisterToolsets_wf :
    ∀ (l : List (GoStr × Toolset)) (tr : ToolsetRegistry),
      tr.WF → (tr.RegisterToolsets l).WF
  | [], _, h => h
  | p :: rest, tr, h =>
    RegisterToolsets_wf rest (tr.Register p.1 p.2)
      (insertToolset_wf p.1 p.2 tr.toolsets h)


theorem lookup_RegisterToolsets :
    ∀ (l : List (GoStr × Toolset)) (tr : ToolsetRegistry) (n : GoStr),
      (l.map Prod.fst).Nodup →
      (tr.RegisterToolsets l).toolsets.lookup n =
        firstSome (l.lookup n) (tr.toolsets.lookup n)
  | [], tr, n, _ => rfl
  | (k, v) :: rest, tr, n, hnd => by
    rw [List.map_cons, List.nodup_cons] at hnd
    obtain ⟨hk, hrest⟩ := hnd
    have ih := lookup_RegisterToolsets rest (tr.Register k v) n hrest
    have step : (tr.RegisterToolsets ((k, v) :: rest)) =
        (tr.Register k v).RegisterToolsets rest := rfl
    rw [step, ih, lookup_cons_eq]
    show firstSome (rest.lookup n) ((insertToolset k v tr.toolsets).lookup n) = _
    rw [lookup_insertToolset]
    by_cases hn : n = k
    · subst hn
      rw [if_pos rfl, if_pos rfl, lookup_none_of_not_mem_keys rest n hk]
      rfl
    · rw [if_neg hn, if_neg hn]

theorem lookup_perm_of_nodup_keys :
    ∀ {l₁ l₂ : List (GoStr × Toolset)}, l₁.Perm l₂ →
      (l₁.map Prod.fst).Nodup → ∀ n, l₁.lookup n = l₂.lookup n := by
  intro l₁ l₂ hperm
  induction hperm with
  | nil => intro _ _; rfl
  | cons x h ih =>
    intro hnd n
    obtain ⟨k, v⟩ := x
    rw [List.map_cons, List.nodup_cons] at hnd
    rw [lookup_cons_eq, lookup_cons_eq]
    by_cases hn : n = k
    · rw [if_pos hn, if_pos hn]
    · rw [if_neg hn, if_neg hn]
      exact ih hnd.2 n
  | swap x y l =>
    intro hnd n
    obtain ⟨k₁, v₁⟩ := x
    obtain ⟨k₂, v₂⟩ := y
    rw [List.map_cons, List.map_cons, List.nodup_cons] at hnd
    have hne : k₂ ≠ k₁ := by
      intro hh
      exact hnd.1 (List.mem_cons.mpr (Or.inl hh))
    rw [lookup_cons_eq, lookup_cons_eq, lookup_cons_eq, lookup_cons_eq]
    by_cases h1 : n = k₂
    · have h2 : ¬ n = k₁ := fun hh => hne (h1 ▸ hh ▸ rfl)
      rw [if_pos h1, if_neg h2, if_pos h1]
    · rw [if_neg h1]
      by_cases h2 : n = k₁
      · rw [if_pos h2, if_pos h2]
      · rw [if_neg h2, if_neg h2, if_neg h1]
  | trans h₁ h₂ ih₁ ih₂ =>
    intro hnd n
    have hnd' := ((h₁.map Prod.fst).nodup_iff).mp hnd
    rw [ih₁ hnd n, ih₂ hnd' n]

/-! ### C7: registration order irrelevance, sorted duplicate-free listing -/

/-- C7: for every sequence of registrations, `List` returns the registered
toolset names sorted lexicographically with no duplicates; and registering
the same toolsets under distinct names in any order produces the very same
registry, hence the same answer to every query over it. -/
theorem C7_registration_order_irrelevant (l₁ l₂ : List (GoStr × Toolset))
    (hperm : l₁.Perm l₂) (hnd : (l₁.map Prod.fst).Nodup) :
    NewToolsetRegistry.RegisterToolsets l₁ = NewToolsetRegistry.RegisterToolsets l₂
    ∧ ∀ l : List (GoStr × Toolset),
        (regList (NewToolsetRegistry.RegisterToolsets l)).Pairwise (· < ·)
        ∧ (regList (NewToolsetRegistry.RegisterToolsets l)).Nodup := by
  have hwfe : NewToolsetRegistry.WF := List.Pairwise.nil
  constructor
  · have hnd₂ : (l₂.map Prod.fst).Nodup := ((hperm.map Prod.fst).nodup_iff).mp hnd
    have w₁ := RegisterToolsets_wf l₁ NewToolsetRegistry hwfe
    have w₂ := RegisterToolsets_wf l₂ NewToolsetRegistry hwfe
    have hl : ∀ n, (NewToolsetRegistry.RegisterToolsets l₁).toolsets.lookup n =
        (NewToolsetRegistry.RegisterToolsets l₂).toolsets.lookup n := by
      intro n
      rw [lookup_RegisterToolsets l₁ _ n hnd, lookup_RegisterToolsets l₂ _ n hnd₂,
        lookup_perm_of_nodup_keys hperm hnd n]
    have heq := sorted_assoc_ext _ _ w₁ w₂ hl
    calc NewToolsetRegistry.RegisterToolsets l₁
        = ⟨(NewToolsetRegistry.RegisterToolsets l₁).toolsets⟩ := rfl
      _ = ⟨(NewToolsetRegistry.RegisterToolsets l₂).toolsets⟩ := by rw [heq]
      _ = NewToolsetRegistry.RegisterToolsets l₂ := rfl
  · intro l
    have w := RegisterToolsets_wf l NewToolsetRegistry hwfe
    have hp : (regList (NewToolsetRegistry.RegisterToolsets l)).Pairwise (· < ·) :=
      List.pairwise_map.mpr w
    exact ⟨hp, hp.imp ne_of_lt⟩

/-- Witness for C7 at a concrete pair of permuted registration sequences. -/
theorem C7_witness :
    NewToolsetRegistry.RegisterToolsets
        [(gs "builds", demoTsBuilds), (gs "artifacts", demoTsArtifacts)] =
      NewToolsetRegistry.RegisterToolsets
        [(gs "artifacts", demoTsArtifacts), (gs "builds", demoTsBuilds)] :=
  (C7_registration_order_irrelevant _ _ (by decide) (by decide)).1

/-! ### The search loop collects a prefix of the match sequence -/

theorem scanTools_cons_match (qL nm : GoStr) (limit : Int) (td : ToolDefinition)
    (rest : List ToolDefinition) (acc : List SearchResult)
    (hm : toolMatchB qL td = true) :
    scanTools qL nm limit (td :: rest) acc =
      if ((acc ++ [toSearchResult qL nm td]).length : Int) ≥ limit
      then acc ++ [toSearchResult qL nm td]
      else scanTools qL nm limit rest (acc ++ [toSearchResult qL nm td]) := by
  simp only [scanTools, hm]
  rw [if_pos trivial]

theorem scanTools_cons_nomatch (qL nm : GoStr) (limit : Int) (td : ToolDefinition)
    (rest : List ToolDefinition) (acc : List SearchResult)
    (hm : toolMatchB qL td = false) :
    scanTools qL nm limit (td :: rest) acc = scanTools qL nm limit rest acc := by
  simp only [scanTools, hm]
  rw [if_neg Bool.false_ne_true]

theorem scanTools_eq (qL nm : GoStr) (limit : Int) :
    ∀ (tds : List ToolDefinition) (acc : List SearchResult),
      (acc.length : Int) < limit →
      scanTools qL nm limit tds acc =
        acc ++ (matchingResults qL nm tds).take (limit.toNat - acc.length)
  | [], acc, h => by
    simp [scanTools, matchingResults]
  | td :: rest, acc, h => by
    by_cases hm : toolMatchB qL td = true
    · have hmr : matchingResults qL nm (td :: rest) =
          toSearchResult qL nm td :: matchingResults qL nm rest := by
        simp [matchingResults, List.filter_cons, hm]
      rw [scanTools_cons_match qL nm limit td rest acc hm, hmr]
      have hlenN : (acc ++ [toSearchResult qL nm td]).length = acc.length + 1 := by
        simp
      by_cases hl : ((acc ++ [toSearchResult qL nm td]).length : Int) ≥ limit
      · rw [if_pos hl]
        rw [hlenN] at hl
        have h1 : limit.toNat - acc.length = 1 := by omega
        rw [h1, List.take_succ_cons, List.take_zero]
      · rw [if_neg hl]
        have hlt : ((acc ++ [toSearchResult qL nm td]).length : Int) < limit :=
          lt_of_not_ge hl
        rw [scanTools_eq qL nm limit rest _ hlt, hlenN]
        rw [hlenN] at hlt
        have h2 : limit.toNat - acc.length = (limit.toNat - (acc.length + 1)) + 1 := by
          omega
        rw [h2, List.take_succ_cons, List.append_assoc]
        rfl
    · have hmr : matchingResults qL nm (td :: rest) = matchingResults qL nm rest := by
        simp [matchingResults, List.filter_cons, hm]
      rw [scanTools_cons_nomatch qL nm limit td rest acc
          (Bool.eq_false_iff.mpr hm), hmr, scanTools_eq qL nm limit rest acc h]

theorem scanToolsets_cons (qL : GoStr) (limit : Int) (tsName : GoStr)
    (ts : Toolset) (rest : List (GoStr × Toolset)) (acc : List SearchResult) :
    scanToolsets qL limit ((tsName, ts) :: rest) acc =
      if ((scanTools qL tsName limit ts.Tools acc).length : Int) ≥ limit
      then scanTools qL tsName limit ts.Tools acc
      else scanToolsets qL limit rest (scanTools qL tsName limit ts.Tools acc) := by
  simp only [scanToolsets]

theorem scanToolsets_eq (qL : GoStr) (limit : Int) :
    ∀ (ts : List (GoStr × Toolset)) (acc : List SearchResult),
      (acc.length : Int) < limit →
      scanToolsets qL limit ts acc =
        acc ++ (allMatches qL ts).take (limit.toNat - acc.length)
  | [], acc, h => by simp [scanToolsets, allMatches]
  | (tsName, ts) :: rest, acc, h => by
    rw [scanToolsets_cons, scanTools_eq qL tsName limit ts.Tools acc h]
    have hall : allMatches qL ((tsName, ts) :: rest) =
        matchingResults qL tsName ts.Tools ++ allMatches qL rest := by
      simp [allMatches]
    rw [hall]
    set M := matchingResults qL tsName ts.Tools with hM
    set k := limit.toNat - acc.length with hk
    by_cases hl : ((acc ++ M.take k).length : Int) ≥ limit
    · rw [if_pos hl]
      have hMk : k ≤ M.length := by
        by_contra hcon
        push_neg at hcon
        have ht : M.take k = M := List.take_of_length_le (le_of_lt hcon)
        rw [ht, List.length_append] at hl
        omega
      have htake : (M ++ allMatches qL rest).take k = M.take k := by
        rw [List.take_append_eq_append_take, Nat.sub_eq_zero_of_le hMk,
          List.take_zero, List.append_nil]
      rw [htake]
    · rw [if_neg hl]
      have hlt : ((acc ++ M.take k).length : Int) < limit := lt_of_not_ge hl
      have hMk : M.length < k := by
        by_contra hcon
        push_neg at hcon
        have ht : (M.take k).length = k := by
          rw [List.length_take]
          exact min_eq_left hcon
        rw [List.length_append, ht] at hlt
        omega
      have htakeM : M.take k = M := List.take_of_length_le (le_of_lt hMk)
      rw [htakeM] at hlt ⊢
      rw [scanToolsets_eq qL limit rest _ hlt]
      rw [List.length_append] at hlt
      have harith : limit.toNat - (acc ++ M).length = k - M.length := by
        rw [List.length_append]
        omega
      rw [harith, List.append_assoc, List.take_append_eq_append_take, htakeM]

/-! ### The final name sort -/

theorem insertByName_perm (r : SearchResult) (l : List SearchResult) :
    (insertByName r l).Perm (r :: l) := by
  induction l with
  | nil => exact List.Perm.refl _
  | cons x xs ih =>
    simp only [insertByName]
    split_ifs with h
    · exact List.Perm.refl _
    · exact (ih.cons x).trans (List.Perm.swap r x xs)

theorem sortByName_perm (rs : List SearchResult) : (sortByName rs).Perm rs := by
  induction rs with
  | nil => exact List.Perm.refl _
  | cons r rest ih =>
    show (insertByName r (sortByName rest)).Perm (r :: rest)
    exact (insertByName_perm r (sortByName rest)).trans (ih.cons r)

theorem insertByName_sorted (r : SearchResult) (l : List SearchResult)
    (h : l.Pairwise (fun a b => a.Tool.Name ≤ b.Tool.Name)) :
    (insertByName r l).Pairwise (fun a b => a.Tool.Name ≤ b.Tool.Name) := by
  induction l with
  | nil => simp [insertByName]
  | cons x xs ih =>
    rw [List.pairwise_cons] at h
    obtain ⟨hx, hxs⟩ := h
    simp only [insertByName]
    split_ifs with h1
    · refine List.pairwise_cons.mpr ⟨fun b hb => ?_, List.pairwise_cons.mpr ⟨hx, hxs⟩⟩
      rcases List.mem_cons.mp hb with rfl | hb
      · exact h1
      · exact le_trans h1 (hx b hb)
    · have h1' : x.Tool.Name ≤ r.Tool.Name := le_of_not_le h1
      refine List.pairwise_cons.mpr ⟨fun b hb => ?_, ih hxs⟩
      have hmem := (insertByName_perm r xs).mem_iff.mp hb
      rcases List.mem_cons.mp hmem with rfl | hb'
      · exact h1'
      · exact hx b hb'

theorem sortByName_sorted (rs : List SearchResult) :
    (sortByName rs).Pairwise (fun a b => a.Tool.Name ≤ b.Tool.Name) := by
  induction rs with
  | nil => exact List.Pairwise.nil
  | cons r rest ih => exact insertByName_sorted r (sortByName rest) ih

theorem sortByName_length (rs : List SearchResult) :
    (sortByName rs).length = rs.length :=
  (sortByName_perm rs).length_eq

theorem mem_sortByName (r : SearchResult) (rs : List SearchResult) :
    r ∈ sortByName rs ↔ r ∈ rs :=
  (sortByName_perm rs).mem_iff

/-- For a positive limit the search result is exactly the first
`limit` elements of the match sequence, re-sorted by tool name. -/
theorem search_eq_take (tr : ToolsetRegistry) (q : GoStr) (limit : Int)
    (hpos : 0 < limit) :
    tr.SearchToolsWithMetadata q limit =
      sortByName ((allMatches (goToLower q) tr.toolsets).take limit.toNat) := by
  unfold ToolsetRegistry.SearchToolsWithMetadata
  rw [scanToolsets_eq (goToLower q) limit tr.toolsets []
    (by simpa using hpos)]
  simp

/-! ### Membership in the match sequence -/

theorem toolMatchB_congr (qL : GoStr) (td td' : ToolDefinition)
    (h : td.Tool = td'.Tool) : toolMatchB qL td = toolMatchB qL td' := by
  unfold toolMatchB nameMatchB descMatchB
  rw [h]

theorem mem_allMatches (qL : GoStr) (ts : List (GoStr × Toolset)) (r : SearchResult) :
    r ∈ allMatches qL ts ↔
      ∃ p, p ∈ ts ∧ ∃ td, td ∈ p.2.Tools ∧ toolMatchB qL td = true ∧
        r = toSearchResult qL p.1 td := by
  simp only [allMatches, matchingResults, List.mem_flatMap, List.mem_map,
    List.mem_filter]
  constructor
  · rintro ⟨p, hp, td, ⟨htd, hm⟩, heq⟩
    exact ⟨p, hp, td, htd, hm, heq.symm⟩
  · rintro ⟨p, hp, td, htd, hm, heq⟩
    exact ⟨p, hp, td, ⟨htd, hm⟩, heq.symm⟩

theorem matchedInOf_cases (qL : GoStr) (td : ToolDefinition) :
    (nameMatchB qL td = true → descMatchB qL td = true →
      matchedInOf qL td = gs "both")
    ∧ (nameMatchB qL td = true → descMatchB qL td = false →
      matchedInOf qL td = gs "name")
    ∧ (nameMatchB qL td = false → descMatchB qL td = true →
      matchedInOf qL td = gs "description") := by
  refine ⟨?_, ?_, ?_⟩ <;> intro h1 h2 <;> unfold matchedInOf <;> simp [h1, h2]

/-! ### C1: search respects the limit and returns a name-sorted prefix -/

/-- C1: for every well-formed registry, every query and every positive
limit, the search result is exactly the first (up to `limit`) matches
collected by iterating toolsets in lexicographically sorted name order
(the canonical entry order of a well-formed registry) and tools in stored
order, re-sorted ascending by tool name; in particular it has at most
`limit` elements and is sorted by tool name. -/
theorem C1_search_limit_prefix_sorted (tr : ToolsetRegistry) (hwf : tr.WF)
    (q : GoStr) (limit : Int) (hpos : 0 < limit) :
    tr.SearchToolsWithMetadata q limit =
      sortByName ((allMatches (goToLower q) tr.toolsets).take limit.toNat)
    ∧ ((tr.SearchToolsWithMetadata q limit).length : Int) ≤ limit
    ∧ (tr.SearchToolsWithMetadata q limit).Pairwise
        (fun a b => a.Tool.Name ≤ b.Tool.Name) := by
  have he := search_eq_take tr q limit hpos
  refine ⟨he, ?_, ?_⟩
  · rw [he, (sortByName_perm _).length_eq, List.length_take]
    have hmin : min limit.toNat (allMatches (goToLower q) tr.toolsets).length
        ≤ limit.toNat := min_le_left _ _
    omega
  · rw [he]
    exact sortByName_sorted _

/-- Witness for C1 at a concrete registry, query and limit. -/
theorem C1_witness :
    demoReg.SearchToolsWithMetadata (gs "build") 1 =
      sortByName ((allMatches (goToLower (gs "build")) demoReg.toolsets).take
        (Int.toNat 1)) :=
  (C1_search_limit_prefix_sorted demoReg
    (by show demoReg.toolsets.Pairwise (fun a b => a.1 < b.1); decide)
    (gs "build") 1 (by decide)).1

/-! ### C2: the match predicate and the matchedIn classification -/

/-- C2: a scanned tool is included in the results exactly when the
lowered query occurs in its lowered name or description (`toolMatchB`,
which unfolds to the two `goStrContains` tests); every result's
`MatchedIn` is the classification of its source tool, which is `"both"`
when both fields match, `"name"` when only the name matches and
`"description"` when only the description matches; the empty query
matches every string; and the containment test means exactly
substring occurrence.  (The limit is assumed large enough that no match
is cut off, so that every tool is scanned.) -/
theorem C2_match_and_classification (tr : ToolsetRegistry) (q : GoStr)
    (limit : Int) (hpos : 0 < limit)
    (hall : ((allMatches (goToLower q) tr.toolsets).length : Int) ≤ limit) :
    (∀ tsName ts, (tsName, ts) ∈ tr.toolsets → ∀ td, td ∈ ts.Tools →
        (toSearchResult (goToLower q) tsName td ∈ tr.SearchToolsWithMetadata q limit
          ↔ toolMatchB (goToLower q) td = true))
    ∧ (∀ td : ToolDefinition, toolMatchB (goToLower q) td =
        (goStrContains (goToLower td.Tool.Name) (goToLower q)
          || goStrContains (goToLower td.Tool.Description) (goToLower q)))
    ∧ (∀ r, r ∈ tr.SearchToolsWithMetadata q limit →
        ∃ p, p ∈ tr.toolsets ∧ ∃ td, td ∈ p.2.Tools ∧
          toolMatchB (goToLower q) td = true ∧
          r = toSearchResult (goToLower q) p.1 td ∧
          r.MatchedIn = matchedInOf (goToLower q) td)
    ∧ (∀ td : ToolDefinition,
        (nameMatchB (goToLower q) td = true → descMatchB (goToLower q) td = true →
          matchedInOf (goToLower q) td = gs "both")
        ∧ (nameMatchB (goToLower q) td = true → descMatchB (goToLower q) td = false →
          matchedInOf (goToLower q) td = gs "name")
        ∧ (nameMatchB (goToLower q) td = false → descMatchB (goToLower q) td = true →
          matchedInOf (goToLower q) td = gs "description"))
    ∧ (∀ s : GoStr, goStrContains s [] = true)
    ∧ (∀ s sub : GoStr, goStrContains s sub = true ↔ sub <:+: s) := by
  have htakeAll : (allMatches (goToLower q) tr.toolsets).take limit.toNat =
      allMatches (goToLower q) tr.toolsets := by
    apply List.take_of_length_le
    omega
  have hmemAll : ∀ r : SearchResult, r ∈ tr.SearchToolsWithMetadata q limit ↔
      r ∈ allMatches (goToLower q) tr.toolsets := by
    intro r
    rw [search_eq_take tr q limit hpos, htakeAll]
    exact (sortByName_perm _).mem_iff
  refine ⟨?_, fun td => rfl, ?_, fun td => matchedInOf_cases (goToLower q) td,
    goStrContains_empty, goStrContains_iff⟩
  · intro tsName ts hts td htd
    rw [hmemAll, mem_allMatches]
    constructor
    · rintro ⟨p, hp, td', htd', hm', heq⟩
      have htool : td.Tool = td'.Tool := congrArg SearchResult.Tool heq
      rw [toolMatchB_congr (goToLower q) td td' htool]
      exact hm'
    · intro hm
      exact ⟨(tsName, ts), hts, td, htd, hm, rfl⟩
  · intro r hr
    rw [hmemAll, mem_allMatches] at hr
    obtain ⟨p, hp, td, htd, hm, heq⟩ := hr
    refine ⟨p, hp, td, htd, hm, heq, ?_⟩
    rw [heq]
    rfl

/-- Witness for C2 at a concrete registry, query and limit. -/
theorem C2_witness :
    toSearchResult (goToLower (gs "artifact")) (gs "artifacts") demoToolGetArtifact
      ∈ demoReg.SearchToolsWithMetadata (gs "artifact") 10 :=
  ((C2_match_and_classification demoReg (gs "artifact") 10 (by decide)
      (by decide)).1 (gs "artifacts") demoTsArtifacts (by decide)
      demoToolGetArtifact (by decide)).mpr (by decide)

/-! ### C10: behaviour at non-positive limits -/

theorem scanTools_nonpos (qL nm : GoStr) (limit : Int) (hlim : limit ≤ 0) :
    ∀ tds : List ToolDefinition,
      scanTools qL nm limit tds [] =
        (match tds.filter (toolMatchB qL) with
         | [] => []
         | td :: _ => [toSearchResult qL nm td])
  | [] => by simp [scanTools]
  | td :: rest => by
    by_cases hm : toolMatchB qL td = true
    · rw [scanTools_cons_match qL nm limit td rest [] hm]
      have hge : (([] ++ [toSearchResult qL nm td]).length : Int) ≥ limit := by
        have h1 : (([] ++ [toSearchResult qL nm td]).length : Int) = 1 := by simp
        omega
      rw [if_pos hge]
      simp [List.filter_cons, hm]
    · rw [scanTools_cons_nomatch qL nm limit td rest [] (Bool.eq_false_iff.mpr hm),
        scanTools_nonpos qL nm limit hlim rest]
      simp [List.filter_cons, hm]

/-- C10 is false as stated: with `limit ≤ 0` the outer `len(results) >=
limit` break fires after the first toolset even when nothing was
collected, so a query whose only matches live in a later toolset returns
no results although a matching tool exists.  Concretely, `"build"`
matches `list_builds` in the second toolset of `demoReg`, but the search
with limit 0 returns the empty list, not one result. -/
theorem C10_counterexample :
    (toolMatchB (goToLower (gs "build")) demoToolListBuilds = true
      ∧ (gs "builds", demoTsBuilds) ∈ demoReg.toolsets
      ∧ demoToolListBuilds ∈ demoTsBuilds.Tools)
    ∧ demoReg.SearchToolsWithMetadata (gs "build") 0 = [] := by decide

/-- C10 amended: with `limit ≤ 0` only the lexicographically first
toolset is scanned.  The search returns exactly the first match of that
toolset when it has one, and the empty list otherwise — even when later
toolsets contain matches.  In particular at most one result is returned
(so the at-most-`limit` bound still fails whenever the first toolset
contains a match). -/
theorem C10_amended_nonpositive_limit (tr : ToolsetRegistry) (q : GoStr)
    (limit : Int) (hlim : limit ≤ 0) :
    tr.SearchToolsWithMetadata q limit =
      firstToolsetMatch (goToLower q) tr.toolsets
    ∧ (tr.SearchToolsWithMetadata q limit).length ≤ 1 := by
  have hmain : tr.SearchToolsWithMetadata q limit =
      firstToolsetMatch (goToLower q) tr.toolsets := by
    unfold ToolsetRegistry.SearchToolsWithMetadata
    rcases hts : tr.toolsets with _ | ⟨⟨tsName, ts⟩, rest⟩
    · simp [scanToolsets, sortByName, firstToolsetMatch]
    · rw [scanToolsets_cons, scanTools_nonpos (goToLower q) tsName limit hlim ts.Tools]
      simp only [firstToolsetMatch]
      rcases hf : ts.Tools.filter (toolMatchB (goToLower q)) with _ | ⟨td, rest'⟩
      · rw [if_pos (by simp; omega)]
        simp [sortByName]
      · rw [if_pos (by simp; omega)]
        simp [sortByName, insertByName]
  refine ⟨hmain, ?_⟩
  rw [hmain]
  rcases tr.toolsets with _ | ⟨⟨tsName, ts⟩, rest⟩
  · simp [firstToolsetMatch]
  · simp only [firstToolsetMatch]
    rcases hf : ts.Tools.filter (toolMatchB (goToLower q)) with _ | ⟨td, rest'⟩ <;> simp

/-- Witness for the amended C10 at a concrete registry and query. -/
theorem C10_witness :
    demoReg.SearchToolsWithMetadata (gs "artifact") 0 =
      firstToolsetMatch (goToLower (gs "artifact")) demoReg.toolsets :=
  (C10_amended_nonpositive_limit demoReg (gs "artifact") 0 (by decide)).1

/-! ### C3: the "all" sentinel equals the full sorted name list -/

/-- C3: whenever the enabled-name list contains the sentinel `"all"`,
`GetEnabledTools` and `GetRequiredScopes` agree with the same queries over
the full explicit name list `List()`. -/
theorem C3_all_sentinel_equals_full_list (tr : ToolsetRegistry)
    (names : List GoStr) (ro : Bool)
    (h : names.contains (gs "all") = true) :
    tr.GetEnabledTools names ro = tr.GetEnabledTools (regList tr) ro
    ∧ tr.GetRequiredScopes names ro = tr.GetRequiredScopes (regList tr) ro := by
  constructor
  · simp only [ToolsetRegistry.GetEnabledTools]
    rw [if_pos h, ite_self]
  · simp only [ToolsetRegistry.GetRequiredScopes]
    rw [if_pos h, ite_self]

/-- Witness for C3 at a concrete registry. -/
theorem C3_witness :
    demoReg.GetEnabledTools [gs "all"] false =
      demoReg.GetEnabledTools (regList demoReg) false :=
  (C3_all_sentinel_equals_full_list demoReg [gs "all"] false (by decide)).1

/-! ### C4: read-only mode returns only read-only tools -/

/-- C4: every tool returned in read-only mode has a true read-only flag;
an absent or explicitly false annotation makes `IsReadOnly` false, and
such a tool is excluded from the read-only result; the read-only view of
each toolset preserves the stored order (it is a sublist). -/
theorem C4_readonly_mode_filters (tr : ToolsetRegistry) (names : List GoStr) :
    (∀ td, td ∈ tr.GetEnabledTools names true → td.IsReadOnly = true)
    ∧ (∀ td : ToolDefinition,
        td.Tool.ReadOnlyHint = none ∨ td.Tool.ReadOnlyHint = some false →
        td.IsReadOnly = false)
    ∧ (∀ td : ToolDefinition, td.IsReadOnly = false →
        td ∉ tr.GetEnabledTools names true)
    ∧ (∀ ts : Toolset, ts.GetReadOnlyTools.Sublist ts.Tools) := by
  have hmem : ∀ td, td ∈ tr.GetEnabledTools names true → td.IsReadOnly = true := by
    intro td htd
    simp only [ToolsetRegistry.GetEnabledTools, List.mem_flatMap] at htd
    obtain ⟨n, hn, htd⟩ := htd
    split at htd
    · rw [if_pos trivial] at htd
      exact (List.mem_filter.mp htd).2
    · simp at htd
  refine ⟨hmem, ?_, ?_, fun ts => List.filter_sublist _⟩
  · intro td h
    rcases h with h | h <;> simp [ToolDefinition.IsReadOnly, h]
  · intro td hro hmem'
    have := hmem td hmem'
    rw [hro] at this
    exact Bool.false_ne_true this

/-- Witness for C4 at a concrete registry and returned tool. -/
theorem C4_witness : demoToolGetArtifact.IsReadOnly = true :=
  (C4_readonly_mode_filters demoReg [gs "all"]).1 demoToolGetArtifact (by decide)

/-! ### C5: the scope list is the sorted duplicate-free union -/

/-- C5: `GetRequiredScopes` is strictly sorted and duplicate-free, and a
scope belongs to it exactly when some tool returned by `GetEnabledTools`
with the same arguments requires it. -/
theorem C5_scopes_sorted_dedup_union (tr : ToolsetRegistry)
    (names : List GoStr) (ro : Bool) :
    (tr.GetRequiredScopes names ro).Pairwise (· < ·)
    ∧ (tr.GetRequiredScopes names ro).Nodup
    ∧ (∀ a, a ∈ tr.GetRequiredScopes names ro ↔
        ∃ td, td ∈ tr.GetEnabledTools names ro ∧ a ∈ goRange td.RequiredScopes) := by
  have hdef : tr.GetRequiredScopes names ro =
      sortedKeySet ((tr.GetEnabledTools names ro).flatMap
        (fun td => goRange td.RequiredScopes)) := rfl
  refine ⟨?_, ?_, ?_⟩
  · rw [hdef]
    exact sortedKeySet_pairwise _
  · rw [hdef]
    exact sortedKeySet_nodup _
  · intro a
    rw [hdef, mem_sortedKeySet, List.mem_flatMap]

/-- Witness for C5: a concrete scope union membership. -/
theorem C5_witness :
    gs "read_artifacts" ∈ demoReg.GetRequiredScopes [gs "all"] false :=
  ((C5_scopes_sorted_dedup_union demoReg [gs "all"] false).2.2
    (gs "read_artifacts")).mpr ⟨demoToolGetArtifact, by decide, by decide⟩

/-! ### C6: unknown toolset names contribute nothing -/

/-- C6 fails as stated for the reserved sentinel: `"all"` is a name that
is not registered in `demoReg`, yet the result with it differs from the
result with it removed, because the sentinel expands to all toolsets
before per-name resolution happens. -/
theorem C6_counterexample :
    (gs "all") ∉ regList demoReg
    ∧ demoReg.GetEnabledTools [gs "all"] false ≠
        demoReg.GetEnabledTools [] false := by
  decide

/-- C6 amended: a name that is not registered and is not the reserved
sentinel `"all"` contributes no tools and no scopes, without error: the
results equal those for the same list with that name removed. -/
theorem C6_amended_unknown_names_ignored (tr : ToolsetRegistry)
    (pre post : List GoStr) (n : GoStr) (ro : Bool)
    (hunk : tr.Get n = none) (hsent : n ≠ gs "all") :
    tr.GetEnabledTools (pre ++ n :: post) ro = tr.GetEnabledTools (pre ++ post) ro
    ∧ tr.GetRequiredScopes (pre ++ n :: post) ro =
        tr.GetRequiredScopes (pre ++ post) ro := by
  have hmemiff : (gs "all" ∈ pre ++ n :: post) ↔ (gs "all" ∈ pre ++ post) := by
    simp only [List.mem_append, List.mem_cons]
    constructor
    · rintro (h | h | h)
      · exact Or.inl h
      · exact absurd h.symm hsent
      · exact Or.inr h
    · rintro (h | h)
      · exact Or.inl h
      · exact Or.inr (Or.inr h)
  have hc : ((pre ++ n :: post).contains (gs "all")) =
      ((pre ++ post).contains (gs "all")) := by
    by_cases hm : gs "all" ∈ pre ++ post
    · have h1 : ((pre ++ post).contains (gs "all")) = true := by
        simpa using hm
      have h2 : ((pre ++ n :: post).contains (gs "all")) = true := by
        simpa using hmemiff.mpr hm
      rw [h1, h2]
    · have h1 : ((pre ++ post).contains (gs "all")) = false := by
        simp only [Bool.eq_false_iff]
        intro hh
        exact hm (by simpa using hh)
      have h2 : ((pre ++ n :: post).contains (gs "all")) = false := by
        simp only [Bool.eq_false_iff]
        intro hh
        exact hm (hmemiff.mp (by simpa using hh))
      rw [h1, h2]
  have henab : tr.GetEnabledTools (pre ++ n :: post) ro =
      tr.GetEnabledTools (pre ++ post) ro := by
    simp only [ToolsetRegistry.GetEnabledTools, hc]
    by_cases hb : ((pre ++ post).contains (gs "all")) = true
    · rw [if_pos hb, if_pos hb]
    · rw [if_neg hb, if_neg hb, List.flatMap_append, List.flatMap_cons,
        List.flatMap_append, hunk]
      simp
  have hdef : ∀ ns, tr.GetRequiredScopes ns ro =
      sortedKeySet ((tr.GetEnabledTools ns ro).flatMap
        (fun td => goRange td.RequiredScopes)) := fun ns => rfl
  refine ⟨henab, ?_⟩
  rw [hdef, hdef, henab]

/-- Witness for the amended C6 at a concrete registry. -/
theorem C6_witness :
    demoReg.GetEnabledTools [gs "builds", gs "unknown"] false =
      demoReg.GetEnabledTools [gs "builds"] false :=
  (C6_amended_unknown_names_ignored demoReg [gs "builds"] [] (gs "unknown")
    false (by decide) (by decide)).1

/-! ### C8: eager validation at startup -/

/-- C8: `ValidateToolsets` errors exactly when some configured name lies
outside the fixed valid set, the error carries exactly the invalid names,
and the command run path returns the validation error before any server
tool list is built (its outcome in the error case does not depend on the
tool builder at all); the valid set is the fixed nine-element list. -/
theorem C8_validate_and_fail_fast (names : List GoStr) :
    (ValidateToolsets names = none ↔ ∀ n ∈ names, IsValidToolset n = true)
    ∧ (∀ inv, ValidateToolsets names = some inv →
        inv ≠ [] ∧ ∀ m ∈ inv, m ∈ names ∧ IsValidToolset m = false)
    ∧ (∀ buildkiteTools, ValidateToolsets names = none →
        ToolsCmdRun names buildkiteTools = RunResult.ok (buildkiteTools names))
    ∧ (∀ inv, ValidateToolsets names = some inv →
        ∀ buildkiteTools buildkiteTools',
          ToolsCmdRun names buildkiteTools = RunResult.err inv
          ∧ ToolsCmdRun names buildkiteTools = ToolsCmdRun names buildkiteTools')
    ∧ ValidToolsets = [gs "all", gs "clusters", gs "pipelines", gs "builds",
        gs "artifacts", gs "logs", gs "tests", gs "annotations", gs "user"] := by
  have hval : ValidateToolsets names =
      (if (names.filter (fun n => !IsValidToolset n)).length > 0
       then some (names.filter (fun n => !IsValidToolset n)) else none) := rfl
  refine ⟨?_, ?_, ?_, ?_, rfl⟩
  · rw [hval]
    by_cases hb : (names.filter (fun n => !IsValidToolset n)).length > 0
    · rw [if_pos hb]
      constructor
      · intro h
        exact absurd h (by simp)
      · intro hall
        exfalso
        have hnil : names.filter (fun n => !IsValidToolset n) = [] := by
          rw [List.filter_eq_nil_iff]
          intro a ha
          rw [hall a ha]
          simp
        rw [hnil] at hb
        simp at hb
    · rw [if_neg hb]
      constructor
      · intro _ n hn
        by_contra hno
        have hfalse : IsValidToolset n = false := Bool.eq_false_iff.mpr hno
        have hmemf : n ∈ names.filter (fun m => !IsValidToolset m) :=
          List.mem_filter.mpr ⟨hn, by rw [hfalse]; rfl⟩
        exact hb (List.length_pos.mpr (List.ne_nil_of_mem hmemf))
      · intro _
        rfl
  · intro inv h
    rw [hval] at h
    by_cases hb : (names.filter (fun n => !IsValidToolset n)).length > 0
    · rw [if_pos hb] at h
      have hinv := Option.some.inj h
      subst hinv
      refine ⟨?_, ?_⟩
      · intro hnil
        rw [hnil] at hb
        simp at hb
      · intro m hm
        have hmf := List.mem_filter.mp hm
        exact ⟨hmf.1, by simpa using hmf.2⟩
    · rw [if_neg hb] at h
      exact absurd h (by simp)
  · intro buildkiteTools h
    simp [ToolsCmdRun, h]
  · intro inv h buildkiteTools buildkiteTools'
    constructor <;> simp [ToolsCmdRun, h]

/-- Witness for C8: an invalid configured name is rejected before the
tool list is built. -/
theorem C8_witness :
    ToolsCmdRun [gs "pipelines", gs "bogus"] (fun _ => []) =
      RunResult.err [gs "bogus"] :=
  ((C8_validate_and_fail_fast [gs "pipelines", gs "bogus"]).2.2.2.1
    [gs "bogus"] (by decide) (fun _ => []) (fun _ => [])).1

/-! ### C9: the search_tools handler -/

/-- C9: the handler queries the registry with the fixed limit 10; an
empty result set yields the structured "no results" response carrying the
static hint text, a non-empty one yields one entry per result carrying
name, description, owning toolset, read-only flag and match
classification; and the required-scopes field of an entry is the empty
list (present, not absent) whenever the tool's scope slice is nil or
empty. -/
theorem C9_search_handler_contract (registry : ToolsetRegistry) (query : GoStr) :
    (registry.SearchToolsWithMetadata query 10 = [] →
        toolSearchHandler registry query =
          ToolSearchOutcome.noResults noResultsMessage)
    ∧ (registry.SearchToolsWithMetadata query 10 ≠ [] →
        toolSearchHandler registry query =
          ToolSearchOutcome.results
            ((registry.SearchToolsWithMetadata query 10).map searchEntryOf))
    ∧ (∀ r : SearchResult,
        (searchEntryOf r).name = r.Tool.Name
        ∧ (searchEntryOf r).description = r.Tool.Description
        ∧ (searchEntryOf r).toolset = r.ToolsetName
        ∧ (searchEntryOf r).read_only = r.ReadOnly
        ∧ (searchEntryOf r).matched_in = r.MatchedIn)
    ∧ (∀ r : SearchResult, r.RequiredScopes = none ∨ r.RequiredScopes = some [] →
        (searchEntryOf r).required_scopes = []) := by
  refine ⟨?_, ?_, fun r => ⟨rfl, rfl, rfl, rfl, rfl⟩, ?_⟩
  · intro h
    simp [toolSearchHandler, h]
  · intro h
    have hlen : (registry.SearchToolsWithMetadata query 10).length ≠ 0 :=
      fun hh => h (List.length_eq_zero.mp hh)
    simp [toolSearchHandler, hlen]
  · intro r hr
    rcases hr with h | h <;> simp [searchEntryOf, h]

/-- Witness for C9: a query with no matches produces the structured "no
results" response. -/
theorem C9_witness :
    toolSearchHandler demoReg (gs "zzz") =
      ToolSearchOutcome.noResults noResultsMessage :=
  (C9_search_handler_contract demoReg (gs "zzz")).1 (by decide)
